import Mathlib

/-
Verification of `all_construct` (src/dynamic_programming/all_construct.py).

The Python function enumerates every ordered sequence of words from a word
bank whose concatenation equals a target string, via a dynamic-programming
table indexed by positions of the target.  Strings are modelled as `List Char`,
a decomposition (combination) as a `List (List Char)`.

The embedding follows the source line by line:
  * `word_positions`  — the `word_positions` dictionary of per-offset word
    sets (lines 53-63); the set at offset `i` is represented as a
    duplicate-free list (Python `set` iteration order is abstracted by the
    `enum` parameter below).
  * `initTable`       — lines 66-67: `n+1` empty slots, slot 0 seeded `[[]]`.
  * `processWord`     — lines 75-82 inner body:
    `dp_table[end_pos].extend([word, *c] for c in dp_table[current_pos])`.
  * `processPos`      — one outer-loop iteration (lines 70-82), including the
    `if not dp_table[current_pos]: continue` skip.
  * `dpTableSteps`    — the table after the first `m` outer iterations.
  * `dp_table`        — the fully-built table.
  * `all_construct`   — lines 84-89: slot `n`, each combination reversed.
  * `all_construct_checked` — the whole function including the validation of
    lines 39-51, over a model `PyVal` of Python runtime values, returning
    `Except PyErr` in place of raised exceptions.
(The source also computes `max_word_length`, which is never read afterwards;
it has no observable effect and is omitted.)
-/

namespace AllConstruct

abbrev Str : Type := List Char

abbrev Decomp : Type := List Str

/-- Words of the bank occurring in `target` at offset `i`: the Python
condition is `target[i:i+len(w)] == w` with `i` in `range(n - len(w) + 1)`,
i.e. `i + len(w) ≤ n`.  This is the set `word_positions.get(i, ())`. -/
def word_positions (target : Str) (wb : List Str) (i : Nat) : List Str :=
  (wb.filter (fun w => decide (i + w.length ≤ target.length) &&
      decide ((target.drop i).take w.length = w))).dedup

/-- Lines 66-67: `dp_table = [[] for _ in range(n+1)]; dp_table[0] = [[]]`. -/
def initTable (n : Nat) : List (List Decomp) :=
  (List.replicate (n + 1) ([] : List Decomp)).set 0 [[]]

/-- Lines 75-82, body for one word `w` at `current_pos`:
`dp_table[end_pos].extend([word, *c] for c in dp_table[current_pos])`.
Combinations are stored with the words in reversed order, exactly as in
the source. -/
def processWord (pos : Nat) (t : List (List Decomp)) (w : Str) : List (List Decomp) :=
  t.set (pos + w.length) (t.getD (pos + w.length) [] ++ (t.getD pos []).map (fun c => w :: c))

/-- One iteration of the outer loop (lines 70-82).  `enum pos` is the order
in which the Python `set` at `pos` is iterated; any enumeration of the set
is admissible. -/
def processPos (enum : Nat → List Str) (t : List (List Decomp)) (pos : Nat) : List (List Decomp) :=
  if t.getD pos [] = [] then t else (enum pos).foldl (processWord pos) t

/-- The DP table after the first `m` iterations of the outer loop. -/
def dpTableSteps (n : Nat) (enum : Nat → List Str) (m : Nat) : List (List Decomp) :=
  (List.range m).foldl (processPos enum) (initTable n)

/-- The fully built DP table for a target of length `n`. -/
def dpTableWith (n : Nat) (enum : Nat → List Str) : List (List Decomp) :=
  dpTableSteps n enum n

/-- The DP table of the source, with the per-position sets enumerated in
(bank-order, deduplicated) order. -/
def dp_table (target : Str) (wb : List Str) : List (List Decomp) :=
  dpTableWith target.length (word_positions target wb)

/-- Lines 84-89: the result is slot `n` with every combination reversed. -/
def all_construct (target : Str) (wb : List Str) : List Decomp :=
  ((dp_table target wb).getD target.length []).map List.reverse

/-- Model of the Python runtime values relevant to the validation code. -/
inductive PyVal where
  | str : Str → PyVal
  | int : Int → PyVal
  | bool : Bool → PyVal
  | none : PyVal
  | list : List PyVal → PyVal

/-- Python truthiness for the modelled values (`bool(v)` is `false`). -/
def PyVal.isFalsy : PyVal → Bool
  | .str s => s.isEmpty
  | .int n => n == 0
  | .bool b => !b
  | .none => true
  | .list l => l.isEmpty

/-- The `isinstance(v, str)` check. -/
def PyVal.isStr : PyVal → Bool
  | .str _ => true
  | _ => false

/-- Extract the underlying string of a `str` value (unused on non-strings). -/
def PyVal.asStr : PyVal → Str
  | .str s => s
  | _ => []

/-- The two kinds of exception the function can raise. -/
inductive PyErr where
  | typeError (msg : String)
  | valueError (msg : String)

/-- Iterating a Python value (`for word in word_bank`): a list yields its
items, a string yields its characters as 1-character strings, anything else
raises `TypeError`. -/
def pyIter : PyVal → Except PyErr (List PyVal)
  | .list l => .ok l
  | .str s => .ok (s.map (fun c => PyVal.str [c]))
  | _ => .error (.typeError "object is not iterable")

/-- Lines 39-51 followed by the computation: validation in source order
(target type, target emptiness, `word_bank = word_bank or []`, element
types, element emptiness), then the DP enumeration on the validated data. -/
def all_construct_checked (target : PyVal) (word_bank : PyVal) : Except PyErr (List Decomp) :=
  match target with
  | PyVal.str t =>
    if t = [] then Except.error (PyErr.valueError "Target string cannot be empty")
    else
      match pyIter (if word_bank.isFalsy then PyVal.list [] else word_bank) with
      | Except.error e => Except.error e
      | Except.ok items =>
        if items.all (fun v => v.isStr) then
          if items.any (fun v => v.isFalsy) then
            Except.error (PyErr.valueError "Word bank cannot contain empty strings")
          else Except.ok (all_construct t (items.map PyVal.asStr))
        else Except.error (PyErr.typeError "All elements in word_bank must be strings")
  | _ => Except.error (PyErr.typeError "Target must be a string")

/-- The substring `target[pos:k]`. -/
def slice (target : Str) (pos k : Nat) : Str := (target.drop pos).take (k - pos)

/-- Canonical description of the DP table contents: `canonSlots target wb k`
lists slots `0 .. k`; slot `k+1` is assembled from strictly smaller slots, in
increasing order of the start position of the word that finishes at `k+1`.
Entries are stored with their words reversed, as in the source table. -/
def canonSlots (target : Str) (wb : List Str) : Nat → List (List Decomp)
  | 0 => [[[]]]
  | k+1 =>
    canonSlots target wb k ++ [(List.range (k+1)).flatMap (fun pos =>
      if slice target pos (k+1) ∈ wb then
        ((canonSlots target wb k).getD pos []).map (fun c => slice target pos (k+1) :: c)
      else [])]

/-- Slot `k` of the canonical table. -/
def canonSlot (target : Str) (wb : List Str) (k : Nat) : List Decomp :=
  (canonSlots target wb k).getD k []

/-- The result of `all_construct` in canonical form. -/
def canonResult (target : Str) (wb : List Str) : List Decomp :=
  (canonSlot target wb target.length).map List.reverse

/-- A reversed-order decomposition of `target[0:k]` over the bank `wb`:
exactly what slot `k` of the table holds. -/
def RevDecomp (target : Str) (wb : List Str) (k : Nat) (e : Decomp) : Prop :=
  e.reverse.flatten = target.take k ∧ ∀ w ∈ e, w ∈ wb

/-- An (in-order) decomposition of `t` over the bank `wb`. -/
def IsDecompOf (t : Str) (wb : List Str) (D : Decomp) : Prop :=
  D.flatten = t ∧ ∀ w ∈ D, w ∈ wb

/-- Modelled from the spec: the reference enumeration order the spec appeals
to ("increasing order of the first word's occurrence, matching scan order of
the word bank at each position") — a depth-first recursion that, at each
position, tries the bank's words in scan order and emits the resulting
decompositions in that order.  `fuel` bounds the recursion depth; any fuel
of at least `t.length` gives the full enumeration. -/
def refAux (wb : List Str) : Nat → Str → List Decomp
  | _, [] => [[]]
  | 0, _ :: _ => []
  | fuel+1, c :: t =>
    wb.flatMap (fun w =>
      if w ≠ [] ∧ (c :: t).take w.length = w then
        (refAux wb fuel ((c :: t).drop w.length)).map (fun d => w :: d)
      else [])

/-- Modelled from the spec: reference (depth-first, bank-scan-order)
enumeration of the decompositions of `t` over `wb`. -/
def refConstruct (wb : List Str) (t : Str) : List Decomp :=
  refAux wb t.length t

/-- Detects a raised `TypeError` in the modelled outcome. -/
def isTypeError : Except PyErr (List Decomp) → Bool
  | .error (.typeError _) => true
  | _ => false

/-- Detects a raised `ValueError` in the modelled outcome. -/
def isValueError : Except PyErr (List Decomp) → Bool
  | .error (.valueError _) => true
  | _ => false

/- ------------------------------------------------------------------ -/
/- Helper lemmas about list indexing.                                 -/
/- ------------------------------------------------------------------ -/

theorem getD_set_self {α : Type} (l : List α) (i : Nat) (a d : α) (h : i < l.length) :
    (l.set i a).getD i d = a := by
  simp [List.getD_eq_getElem?_getD, List.getElem?_set, h]

theorem getD_set_ne {α : Type} (l : List α) {i j : Nat} (a d : α) (h : i ≠ j) :
    (l.set i a).getD j d = l.getD j d := by
  simp [List.getD_eq_getElem?_getD, List.getElem?_set, h]

theorem getD_replicate {α : Type} (n k : Nat) (a : α) :
    (List.replicate n a).getD k a = a := by
  rcases lt_or_le k n with h | h
  · simp [List.getD_eq_getElem?_getD, List.getElem?_replicate, h]
  · rw [List.getD_eq_getElem?_getD, List.getElem?_eq_none (by simpa using h)]
    rfl

theorem initTable_getD_zero (n : Nat) : (initTable n).getD 0 [] = [[]] := by
  apply getD_set_self
  simp

theorem initTable_getD_ne_zero (n : Nat) {k : Nat} (h : k ≠ 0) :
    (initTable n).getD k [] = [] := by
  rw [initTable, getD_set_ne _ _ _ (fun h0 => h h0.symm)]
  exact getD_replicate _ _ _

theorem initTable_length (n : Nat) : (initTable n).length = n + 1 := by
  simp [initTable]

/- ------------------------------------------------------------------ -/
/- Lemmas about `word_positions` and `slice`.                         -/
/- ------------------------------------------------------------------ -/

theorem mem_word_positions {target : Str} {wb : List Str} {i : Nat} {w : Str} :
    w ∈ word_positions target wb i ↔
      w ∈ wb ∧ i + w.length ≤ target.length ∧ (target.drop i).take w.length = w := by
  simp [word_positions, List.mem_dedup, List.mem_filter, and_assoc]

theorem nodup_word_positions (target : Str) (wb : List Str) (i : Nat) :
    (word_positions target wb i).Nodup :=
  List.nodup_dedup _

theorem length_slice {target : Str} {pos k : Nat} (h1 : pos ≤ k) (h2 : k ≤ target.length) :
    (slice target pos k).length = k - pos := by
  simp only [slice, List.length_take, List.length_drop]
  omega

theorem take_length_slice {target : Str} {pos k : Nat} (h1 : pos ≤ k) (h2 : k ≤ target.length) :
    (target.drop pos).take (slice target pos k).length = slice target pos k := by
  rw [length_slice h1 h2, slice]

theorem slice_mem_word_positions {target : Str} {wb : List Str} {pos k : Nat}
    (h1 : pos < k) (h2 : k ≤ target.length) :
    (slice target pos k ∈ word_positions target wb pos ↔ slice target pos k ∈ wb) := by
  rw [mem_word_positions]
  constructor
  · exact fun h => h.1
  · intro h
    refine ⟨h, ?_, take_length_slice (le_of_lt h1) h2⟩
    rw [length_slice (le_of_lt h1) h2]
    omega

theorem eq_slice_of_matching {target : Str} {pos k : Nat} {w : Str}
    (hlen : pos + w.length = k)
    (hmatch : (target.drop pos).take w.length = w) :
    slice target pos k = w := by
  rw [slice, show k - pos = w.length by omega, hmatch]

/- ------------------------------------------------------------------ -/
/- Length preservation through the table-filling loop.                -/
/- ------------------------------------------------------------------ -/

theorem length_processWord (pos : Nat) (t : List (List Decomp)) (w : Str) :
    (processWord pos t w).length = t.length := by
  simp [processWord]

theorem length_foldl_processWord (pos : Nat) (words : List Str) (t : List (List Decomp)) :
    (words.foldl (processWord pos) t).length = t.length := by
  induction words generalizing t with
  | nil => rfl
  | cons w ws ih => rw [List.foldl_cons, ih, length_processWord]

theorem length_processPos (enum : Nat → List Str) (t : List (List Decomp)) (pos : Nat) :
    (processPos enum t pos).length = t.length := by
  rw [processPos]
  split
  · rfl
  · exact length_foldl_processWord _ _ _

theorem length_dpTableSteps (n : Nat) (enum : Nat → List Str) (m : Nat) :
    (dpTableSteps n enum m).length = n + 1 := by
  induction m with
  | zero => exact initTable_length n
  | succ m ih =>
    rw [dpTableSteps, List.range_succ, List.foldl_append, List.foldl_cons, List.foldl_nil,
      length_processPos]
    exact ih

/- ------------------------------------------------------------------ -/
/- Effect of the inner word loop on each slot.  Distinct words of the -/
/- per-position set have distinct lengths (they all match the target  -/
/- at `pos`), so each slot `s` receives at most one batch of new      -/
/- combinations: those of the unique word reaching from `pos` to `s`, -/
/- which is necessarily the substring `target[pos:s]`.                -/
/- ------------------------------------------------------------------ -/

theorem foldl_processWord_getD (target : Str) (pos : Nat) (words : List Str)
    (hw : ∀ w ∈ words, w ≠ [] ∧ pos + w.length ≤ target.length ∧
        (target.drop pos).take w.length = w)
    (hnd : words.Nodup)
    (t : List (List Decomp)) (ht : t.length = target.length + 1) (s : Nat) :
    (words.foldl (processWord pos) t).getD s [] =
      t.getD s [] ++
        (if pos < s ∧ s ≤ target.length ∧ slice target pos s ∈ words then
          (t.getD pos []).map (fun c => slice target pos s :: c)
        else []) := by
  induction words generalizing t with
  | nil => simp
  | cons w ws ih =>
    obtain ⟨hw1, hw2, hw3⟩ := hw w (List.mem_cons_self _ _)
    have hwlen : 1 ≤ w.length := by
      cases w with
      | nil => exact absurd rfl hw1
      | cons a l => simp
    have hndw : w ∉ ws := (List.nodup_cons.mp hnd).1
    have hndws : ws.Nodup := (List.nodup_cons.mp hnd).2
    have hws : ∀ x ∈ ws, x ≠ [] ∧ pos + x.length ≤ target.length ∧
        (target.drop pos).take x.length = x := fun x hx => hw x (List.mem_cons_of_mem _ hx)
    rw [List.foldl_cons]
    rw [ih hws hndws (processWord pos t w) (by rw [length_processWord]; exact ht)]
    have hpp : (processWord pos t w).getD pos [] = t.getD pos [] := by
      rw [processWord, getD_set_ne]
      omega
    rw [hpp]
    by_cases hs : s = pos + w.length
    · have hslice : slice target pos s = w := eq_slice_of_matching hs.symm hw3
      have hset : (processWord pos t w).getD s [] =
          t.getD s [] ++ (t.getD pos []).map (fun c => w :: c) := by
        rw [processWord, hs, getD_set_self]
        rw [ht]; omega
      rw [hset]
      have hc1 : pos < s ∧ s ≤ target.length ∧ slice target pos s ∈ w :: ws :=
        ⟨by omega, by omega, by rw [hslice]; exact List.mem_cons_self _ _⟩
      rw [if_pos hc1]
      have hc2 : ¬ (pos < s ∧ s ≤ target.length ∧ slice target pos s ∈ ws) := by
        rintro ⟨-, -, h⟩
        rw [hslice] at h
        exact hndw h
      rw [if_neg hc2, List.append_nil, hslice]
    · have hset : (processWord pos t w).getD s [] = t.getD s [] := by
        rw [processWord, getD_set_ne _ _ _ (fun h => hs h.symm)]
      rw [hset]
      congr 1
      have hiff : (pos < s ∧ s ≤ target.length ∧ slice target pos s ∈ ws) ↔
          (pos < s ∧ s ≤ target.length ∧ slice target pos s ∈ w :: ws) := by
        constructor
        · rintro ⟨h1, h2, h3⟩
          exact ⟨h1, h2, List.mem_cons_of_mem _ h3⟩
        · rintro ⟨h1, h2, h3⟩
          refine ⟨h1, h2, ?_⟩
          rcases List.mem_cons.mp h3 with he | he
          · exfalso
            apply hs
            have hl : (slice target pos s).length = s - pos := length_slice (le_of_lt h1) h2
            rw [he] at hl
            omega
          · exact he
      rw [if_congr hiff rfl rfl]

/- ------------------------------------------------------------------ -/
/- Effect of one outer-loop iteration on each slot.                   -/
/- ------------------------------------------------------------------ -/

theorem dpTableSteps_succ (n : Nat) (enum : Nat → List Str) (m : Nat) :
    dpTableSteps n enum (m+1) = processPos enum (dpTableSteps n enum m) m := by
  rw [dpTableSteps, List.range_succ, List.foldl_append, List.foldl_cons, List.foldl_nil]
  rfl

theorem dpTableSteps_succ_getD (target : Str) (wb : List Str) (enum : Nat → List Str)
    (henum : ∀ i, (enum i).Perm (word_positions target wb i))
    (hvalid : ∀ w ∈ wb, w ≠ [])
    (m s : Nat) :
    (dpTableSteps target.length enum (m+1)).getD s [] =
      (dpTableSteps target.length enum m).getD s [] ++
        (if m < s ∧ s ≤ target.length ∧ slice target m s ∈ word_positions target wb m then
          ((dpTableSteps target.length enum m).getD m []).map (fun c => slice target m s :: c)
        else []) := by
  rw [dpTableSteps_succ, processPos]
  by_cases hempty : (dpTableSteps target.length enum m).getD m [] = []
  · rw [if_pos hempty, hempty]
    simp
  · rw [if_neg hempty]
    have hw : ∀ w ∈ enum m, w ≠ [] ∧ m + w.length ≤ target.length ∧
        (target.drop m).take w.length = w := by
      intro w hwmem
      have hmem : w ∈ word_positions target wb m := ((henum m).mem_iff).mp hwmem
      rw [mem_word_positions] at hmem
      exact ⟨hvalid w hmem.1, hmem.2.1, hmem.2.2⟩
    have hnd : (enum m).Nodup := ((henum m).symm).nodup (nodup_word_positions target wb m)
    rw [foldl_processWord_getD target m (enum m) hw hnd _ (length_dpTableSteps _ _ _) s]
    congr 1
    refine if_congr ?_ rfl rfl
    constructor
    · rintro ⟨h1, h2, h3⟩
      exact ⟨h1, h2, ((henum m).mem_iff).mp h3⟩
    · rintro ⟨h1, h2, h3⟩
      exact ⟨h1, h2, ((henum m).mem_iff).mpr h3⟩

theorem dpTableSteps_getD_stable (target : Str) (wb : List Str) (enum : Nat → List Str)
    (henum : ∀ i, (enum i).Perm (word_positions target wb i))
    (hvalid : ∀ w ∈ wb, w ≠ [])
    (k : Nat) :
    ∀ m, k ≤ m → (dpTableSteps target.length enum m).getD k [] =
      (dpTableSteps target.length enum k).getD k [] := by
  intro m
  induction m with
  | zero =>
    intro h
    rw [Nat.le_zero.mp h]
  | succ m ih =>
    intro h
    rcases Nat.eq_or_lt_of_le h with he | hlt
    · rw [he]
    · have hkm : k ≤ m := Nat.lt_succ_iff.mp hlt
      rw [dpTableSteps_succ_getD target wb enum henum hvalid m k,
        if_neg (fun hc => absurd hc.1 (by omega)), List.append_nil]
      exact ih hkm

/- ------------------------------------------------------------------ -/
/- The canonical table: basic structure.                              -/
/- ------------------------------------------------------------------ -/

theorem canonSlots_length (target : Str) (wb : List Str) (k : Nat) :
    (canonSlots target wb k).length = k + 1 := by
  induction k with
  | zero => rfl
  | succ k ih =>
    rw [canonSlots, List.length_append, ih]
    rfl

theorem canonSlots_getD_stable (target : Str) (wb : List Str) :
    ∀ k pos, pos ≤ k → (canonSlots target wb k).getD pos [] = canonSlot target wb pos := by
  intro k
  induction k with
  | zero =>
    intro pos h
    rw [Nat.le_zero.mp h]
    rfl
  | succ k ih =>
    intro pos h
    rcases Nat.eq_or_lt_of_le h with he | hlt
    · rw [he]
      rfl
    · have hpk : pos ≤ k := Nat.lt_succ_iff.mp hlt
      rw [canonSlots, List.getD_append _ _ _ _ (by rw [canonSlots_length]; omega)]
      exact ih pos hpk

theorem canonSlot_zero (target : Str) (wb : List Str) :
    canonSlot target wb 0 = [[]] := rfl

theorem canonSlot_succ (target : Str) (wb : List Str) (k : Nat) :
    canonSlot target wb (k+1) = (List.range (k+1)).flatMap (fun pos =>
      if slice target pos (k+1) ∈ wb then
        (canonSlot target wb pos).map (fun c => slice target pos (k+1) :: c)
      else []) := by
  rw [canonSlot, canonSlots,
    List.getD_append_right _ _ _ _ (by rw [canonSlots_length]),
    canonSlots_length, Nat.sub_self, List.getD_cons_zero]
  simp only [List.flatMap_def]
  refine congrArg List.flatten (List.map_congr_left ?_)
  intro pos hpos
  have hpk : pos ≤ k := by
    have := List.mem_range.mp hpos
    omega
  rw [canonSlots_getD_stable target wb k pos hpk]

/- ------------------------------------------------------------------ -/
/- The DP table computes the canonical table, for any admissible      -/
/- enumeration of the per-position word sets.                         -/
/- ------------------------------------------------------------------ -/

theorem dpTableSteps_zero (n : Nat) (enum : Nat → List Str) :
    dpTableSteps n enum 0 = initTable n := by
  rw [dpTableSteps, List.range_zero, List.foldl_nil]

theorem dpTableSteps_getD_accum (target : Str) (wb : List Str) (enum : Nat → List Str)
    (henum : ∀ i, (enum i).Perm (word_positions target wb i))
    (hvalid : ∀ w ∈ wb, w ≠ [])
    (K : Nat) (hK : K + 1 ≤ target.length)
    (IH : ∀ m, m < K + 1 →
      (dpTableSteps target.length enum m).getD m [] = canonSlot target wb m) :
    ∀ j, j ≤ K + 1 →
      (dpTableSteps target.length enum j).getD (K+1) [] =
        (List.range j).flatMap (fun pos =>
          if slice target pos (K+1) ∈ wb then
            (canonSlot target wb pos).map (fun c => slice target pos (K+1) :: c)
          else []) := by
  intro j
  induction j with
  | zero =>
    intro _
    rw [dpTableSteps_zero, initTable_getD_ne_zero target.length (Nat.succ_ne_zero K),
      List.range_zero]
    simp
  | succ j ihj =>
    intro hj
    have hjK : j < K + 1 := hj
    rw [dpTableSteps_succ_getD target wb enum henum hvalid j (K+1), ihj (le_of_lt hjK),
      List.range_succ, List.flatMap_append]
    congr 1
    rw [List.flatMap_cons, List.flatMap_nil, List.append_nil, IH j hjK]
    refine if_congr ?_ rfl rfl
    constructor
    · rintro ⟨-, -, h3⟩
      exact (slice_mem_word_positions hjK hK).mp h3
    · intro h
      exact ⟨hjK, hK, (slice_mem_word_positions hjK hK).mpr h⟩

theorem dpTableSteps_getD_eq_canonSlot (target : Str) (wb : List Str) (enum : Nat → List Str)
    (henum : ∀ i, (enum i).Perm (word_positions target wb i))
    (hvalid : ∀ w ∈ wb, w ≠ []) :
    ∀ k, k ≤ target.length →
      (dpTableSteps target.length enum k).getD k [] = canonSlot target wb k := by
  intro k
  induction k using Nat.strong_induction_on with
  | _ k IH =>
    intro hk
    cases k with
    | zero =>
      rw [dpTableSteps_zero, initTable_getD_zero, canonSlot_zero]
    | succ K =>
      rw [dpTableSteps_getD_accum target wb enum henum hvalid K hk
        (fun m hm => IH m hm (by omega)) (K+1) le_rfl, canonSlot_succ]

theorem dpTableWith_getD_eq_canonSlot (target : Str) (wb : List Str) (enum : Nat → List Str)
    (henum : ∀ i, (enum i).Perm (word_positions target wb i))
    (hvalid : ∀ w ∈ wb, w ≠ [])
    (k : Nat) (hk : k ≤ target.length) :
    (dpTableWith target.length enum).getD k [] = canonSlot target wb k := by
  rw [dpTableWith, dpTableSteps_getD_stable target wb enum henum hvalid k target.length hk,
    dpTableSteps_getD_eq_canonSlot target wb enum henum hvalid k hk]

theorem dp_table_getD_eq_canonSlot (target : Str) (wb : List Str)
    (hvalid : ∀ w ∈ wb, w ≠ []) (k : Nat) (hk : k ≤ target.length) :
    (dp_table target wb).getD k [] = canonSlot target wb k := by
  exact dpTableWith_getD_eq_canonSlot target wb (word_positions target wb)
    (fun i => List.Perm.refl _) hvalid k hk

theorem all_construct_eq_canonResult (target : Str) (wb : List Str)
    (hvalid : ∀ w ∈ wb, w ≠ []) :
    all_construct target wb = canonResult target wb := by
  rw [all_construct, canonResult,
    dp_table_getD_eq_canonSlot target wb hvalid target.length le_rfl]

/- ------------------------------------------------------------------ -/
/- Soundness, completeness and freedom from duplicates of the         -/
/- canonical slots.                                                   -/
/- ------------------------------------------------------------------ -/

theorem reverse_flatten_cons (w : Str) (c : Decomp) :
    ((w :: c).reverse).flatten = c.reverse.flatten ++ w := by
  simp

theorem mem_canonSlot_iff (target : Str) (wb : List Str) (hvalid : ∀ w ∈ wb, w ≠ []) :
    ∀ k, k ≤ target.length →
      ∀ e, e ∈ canonSlot target wb k ↔ RevDecomp target wb k e := by
  intro k
  induction k using Nat.strong_induction_on with
  | _ k IH =>
    intro hk e
    cases k with
    | zero =>
      rw [canonSlot_zero]
      constructor
      · intro he
        have he' : e = [] := by simpa using he
        subst he'
        exact ⟨by simp, by simp⟩
      · rintro ⟨h1, h2⟩
        rw [List.take_zero] at h1
        cases e with
        | nil => simp
        | cons w c =>
          exfalso
          rw [reverse_flatten_cons] at h1
          have hw : w = [] := (List.append_eq_nil.mp h1).2
          exact hvalid w (h2 w (List.mem_cons_self _ _)) hw
    | succ K =>
      rw [canonSlot_succ]
      constructor
      · intro he
        rw [List.mem_flatMap] at he
        obtain ⟨pos, hpos, hin⟩ := he
        have hposlt : pos < K + 1 := List.mem_range.mp hpos
        by_cases hsl : slice target pos (K+1) ∈ wb
        · rw [if_pos hsl, List.mem_map] at hin
          obtain ⟨c, hc, rfl⟩ := hin
          have hrc : RevDecomp target wb pos c :=
            (IH pos hposlt (by omega) c).mp hc
          constructor
          · rw [reverse_flatten_cons, hrc.1]
            simp only [slice]
            rw [← List.take_add]
            congr 1
            omega
          · intro w hw
            rcases List.mem_cons.mp hw with hwe | hw'
            · rw [hwe]
              exact hsl
            · exact hrc.2 w hw'
        · rw [if_neg hsl] at hin
          simp at hin
      · rintro ⟨h1, h2⟩
        have hlenT : (target.take (K+1)).length = K + 1 := by
          rw [List.length_take]
          omega
        cases e with
        | nil =>
          exfalso
          rw [← h1] at hlenT
          simp at hlenT
        | cons w c =>
          have hw : w ∈ wb := h2 w (List.mem_cons_self _ _)
          have hwne : w ≠ [] := hvalid w hw
          have hwpos : 0 < w.length := List.length_pos.mpr hwne
          have hflat : c.reverse.flatten ++ w = target.take (K+1) := by
            rw [← reverse_flatten_cons]
            exact h1
          have hlen : c.reverse.flatten.length + w.length = K + 1 := by
            rw [← List.length_append, hflat, hlenT]
          have hwle : w.length ≤ K + 1 := by omega
          have hclen : c.reverse.flatten.length = K + 1 - w.length := by omega
          have hsplit : c.reverse.flatten ++ w =
              (target.take (K+1)).take (K + 1 - w.length) ++
                (target.take (K+1)).drop (K + 1 - w.length) := by
            rw [List.take_append_drop]
            exact hflat
          have hlen2 : c.reverse.flatten.length =
              ((target.take (K+1)).take (K + 1 - w.length)).length := by
            rw [List.length_take, hlenT, hclen]
            omega
          obtain ⟨hcflat, hwdrop⟩ := List.append_inj hsplit hlen2
          have hcflat' : c.reverse.flatten = target.take (K + 1 - w.length) := by
            rw [hcflat, List.take_take]
            congr 1
            omega
          have hwslice : slice target (K + 1 - w.length) (K+1) = w := by
            rw [slice, ← List.drop_take]
            exact hwdrop.symm
          have hrc : RevDecomp target wb (K + 1 - w.length) c :=
            ⟨hcflat', fun x hx => h2 x (List.mem_cons_of_mem _ hx)⟩
          have hposlt : K + 1 - w.length < K + 1 := by omega
          have hcmem : c ∈ canonSlot target wb (K + 1 - w.length) :=
            (IH (K + 1 - w.length) hposlt (by omega) c).mpr hrc
          rw [List.mem_flatMap]
          refine ⟨K + 1 - w.length, List.mem_range.mpr hposlt, ?_⟩
          rw [if_pos (by rw [hwslice]; exact hw)]
          rw [List.mem_map]
          exact ⟨c, hcmem, by rw [hwslice]⟩

theorem nodup_canonSlot (target : Str) (wb : List Str) (hvalid : ∀ w ∈ wb, w ≠ []) :
    ∀ k, k ≤ target.length → (canonSlot target wb k).Nodup := by
  intro k
  induction k using Nat.strong_induction_on with
  | _ k IH =>
    intro hk
    cases k with
    | zero =>
      rw [canonSlot_zero]
      simp
    | succ K =>
      rw [canonSlot_succ, List.flatMap_def, List.nodup_flatten]
      constructor
      · intro bl hbl
        rw [List.mem_map] at hbl
        obtain ⟨pos, hpos, hbl'⟩ := hbl
        rw [← hbl']
        by_cases hsl : slice target pos (K+1) ∈ wb
        · rw [if_pos hsl]
          refine List.Nodup.map ?_ (IH pos (List.mem_range.mp hpos) (by
            have := List.mem_range.mp hpos
            omega))
          intro a b hab
          simpa using hab
        · rw [if_neg hsl]
          exact List.nodup_nil
      · rw [List.pairwise_map]
        refine (List.pairwise_lt_range (K+1)).imp ?_
        intro i j hij e hei hej
        by_cases hjlt : j < K + 1
        · have hilt : i < K + 1 := lt_trans hij hjlt
          by_cases hsli : slice target i (K+1) ∈ wb
          · by_cases hslj : slice target j (K+1) ∈ wb
            · rw [if_pos hsli, List.mem_map] at hei
              rw [if_pos hslj, List.mem_map] at hej
              obtain ⟨c, -, hc⟩ := hei
              obtain ⟨c', -, hc'⟩ := hej
              rw [← hc'] at hc
              have hheads : slice target i (K+1) = slice target j (K+1) :=
                (List.cons.injEq _ _ _ _).mp hc |>.1
              have hli : (slice target i (K+1)).length = K + 1 - i :=
                length_slice (by omega) hk
              have hlj : (slice target j (K+1)).length = K + 1 - j :=
                length_slice (by omega) hk
              rw [hheads, hlj] at hli
              omega
            · rw [if_neg hslj] at hej
              simp at hej
          · rw [if_neg hsli] at hei
            simp at hei
        · have hslj : slice target j (K+1) = [] := by
            rw [slice, show K + 1 - j = 0 by omega, List.take_zero]
          by_cases hmem : slice target j (K+1) ∈ wb
          · exact absurd hslj (hvalid _ hmem)
          · rw [if_neg hmem] at hej
            simp at hej

/- ------------------------------------------------------------------ -/
/- Derived facts about the returned result.                           -/
/- ------------------------------------------------------------------ -/

theorem all_construct_sound (target : Str) (wb : List Str) (hvalid : ∀ w ∈ wb, w ≠ []) :
    ∀ D ∈ all_construct target wb, D.flatten = target ∧ ∀ w ∈ D, w ∈ wb := by
  intro D hD
  rw [all_construct_eq_canonResult target wb hvalid, canonResult, List.mem_map] at hD
  obtain ⟨e, he, hrev⟩ := hD
  have hr : RevDecomp target wb target.length e :=
    (mem_canonSlot_iff target wb hvalid target.length le_rfl e).mp he
  constructor
  · rw [← hrev]
    exact hr.1.trans (List.take_length target)
  · intro w hw
    rw [← hrev] at hw
    exact hr.2 w (List.mem_reverse.mp hw)

theorem count_eq_one_of_nodup_of_mem {α : Type} [BEq α] [LawfulBEq α] {a : α}
    {l : List α} (hnd : l.Nodup) (hm : a ∈ l) : l.count a = 1 := by
  induction l with
  | nil => simp at hm
  | cons x xs ih =>
    rw [List.count_cons]
    rcases List.mem_cons.mp hm with he | hm'
    · subst he
      have hx : a ∉ xs := (List.nodup_cons.mp hnd).1
      rw [List.count_eq_zero.mpr hx]
      simp
    · have hne : a ≠ x := by
        intro he
        subst he
        exact (List.nodup_cons.mp hnd).1 hm'
      rw [ih (List.nodup_cons.mp hnd).2 hm']
      simp [Ne.symm hne]

theorem all_construct_count_eq_one (target : Str) (wb : List Str)
    (hvalid : ∀ w ∈ wb, w ≠ []) (D : Decomp)
    (hD : D.flatten = target) (hDm : ∀ w ∈ D, w ∈ wb) :
    (all_construct target wb).count D = 1 := by
  rw [all_construct_eq_canonResult target wb hvalid, canonResult]
  apply count_eq_one_of_nodup_of_mem
  · exact List.Nodup.map List.reverse_injective
      (nodup_canonSlot target wb hvalid target.length le_rfl)
  · rw [List.mem_map]
    refine ⟨D.reverse, ?_, List.reverse_reverse D⟩
    apply (mem_canonSlot_iff target wb hvalid target.length le_rfl _).mpr
    constructor
    · rw [List.reverse_reverse, hD, List.take_length]
    · intro w hw
      exact hDm w (List.mem_reverse.mp hw)

theorem all_construct_nodup (target : Str) (wb : List Str)
    (hvalid : ∀ w ∈ wb, w ≠ []) : (all_construct target wb).Nodup := by
  rw [all_construct_eq_canonResult target wb hvalid, canonResult]
  exact List.Nodup.map List.reverse_injective
    (nodup_canonSlot target wb hvalid target.length le_rfl)

theorem all_construct_nil (target : Str) (h : target ≠ []) :
    all_construct target [] = [] := by
  rw [List.eq_nil_iff_forall_not_mem]
  intro D hD
  have hs := all_construct_sound target [] (by simp) D hD
  cases D with
  | nil => exact h hs.1.symm
  | cons w c => simpa using hs.2 w (List.mem_cons_self _ _)

theorem length_le_flatten_length (D : Decomp) (h : ∀ w ∈ D, w ≠ []) :
    D.length ≤ D.flatten.length := by
  induction D with
  | nil => simp
  | cons w d ih =>
    rw [List.flatten_cons, List.length_cons, List.length_append]
    have hw : 0 < w.length :=
      List.length_pos.mpr (h w (List.mem_cons_self _ _))
    have hd := ih (fun x hx => h x (List.mem_cons_of_mem _ hx))
    omega

theorem flatten_reverse_length (e : Decomp) :
    e.reverse.flatten.length = e.flatten.length := by
  rw [List.length_flatten, List.length_flatten, List.map_reverse, List.sum_reverse]

/- ------------------------------------------------------------------ -/
/- The validation wrapper on well-formed arguments.                   -/
/- ------------------------------------------------------------------ -/

theorem pyIter_list (l : List PyVal) :
    pyIter (if (PyVal.list l).isFalsy then PyVal.list [] else PyVal.list l) =
      Except.ok l := by
  cases l <;> rfl

theorem checked_valid (target : Str) (wb : List Str) (h1 : target ≠ [])
    (h2 : ∀ w ∈ wb, w ≠ []) :
    all_construct_checked (PyVal.str target) (PyVal.list (wb.map PyVal.str)) =
      Except.ok (all_construct target wb) := by
  have hall : (wb.map PyVal.str).all (fun v => v.isStr) = true := by
    rw [List.all_eq_true]
    intro v hv
    rw [List.mem_map] at hv
    obtain ⟨w, -, hw⟩ := hv
    rw [← hw]
    rfl
  have hany : (wb.map PyVal.str).any (fun v => v.isFalsy) = false := by
    rw [← Bool.not_eq_true, List.any_eq_true]
    rintro ⟨v, hv, hfal⟩
    rw [List.mem_map] at hv
    obtain ⟨w, hwmem, hw⟩ := hv
    rw [← hw] at hfal
    have : w = [] := by simpa [PyVal.isFalsy] using hfal
    exact h2 w hwmem this
  have hmap : (wb.map PyVal.str).map PyVal.asStr = wb := by
    rw [List.map_map]
    apply List.map_id'' ?_ wb
    intro w
    rfl
  simp only [all_construct_checked, if_neg h1, pyIter_list, hall, hany, hmap]
  simp

/- ------------------------------------------------------------------ -/
/- Invariant holding after every outer-loop iteration.                -/
/- ------------------------------------------------------------------ -/

theorem dpTableSteps_invariant (target : Str) (wb : List Str)
    (hvalid : ∀ w ∈ wb, w ≠ []) :
    ∀ m,
      (∀ k e, e ∈ (dpTableSteps target.length (word_positions target wb) m).getD k [] →
        e.reverse.flatten = target.take k ∧ (∀ w ∈ e, w ∈ wb) ∧ e.flatten.length = k) ∧
      (dpTableSteps target.length (word_positions target wb) m).getD 0 [] = [[]] := by
  have henum : ∀ i, (word_positions target wb i).Perm (word_positions target wb i) :=
    fun i => List.Perm.refl _
  intro m
  induction m with
  | zero =>
    constructor
    · intro k e he
      rw [dpTableSteps_zero] at he
      by_cases hk : k = 0
      · subst hk
        rw [initTable_getD_zero] at he
        have he' : e = [] := by simpa using he
        subst he'
        exact ⟨by simp, by simp, by simp⟩
      · rw [initTable_getD_ne_zero _ hk] at he
        simp at he
    · rw [dpTableSteps_zero]
      exact initTable_getD_zero _
  | succ m ih =>
    constructor
    · intro k e he
      rw [dpTableSteps_succ_getD target wb _ henum hvalid m k] at he
      rcases List.mem_append.mp he with hold | hnew
      · exact ih.1 k e hold
      · by_cases hc : m < k ∧ k ≤ target.length ∧
            slice target m k ∈ word_positions target wb m
        · rw [if_pos hc, List.mem_map] at hnew
          obtain ⟨c, hcmem, rfl⟩ := hnew
          obtain ⟨hc1, hc2, hc3⟩ := ih.1 m c hcmem
          obtain ⟨hm1, hm2, hm3⟩ := hc
          have hslmem : slice target m k ∈ wb := (mem_word_positions.mp hm3).1
          refine ⟨?_, ?_, ?_⟩
          · rw [reverse_flatten_cons, hc1]
            simp only [slice]
            rw [← List.take_add]
            congr 1
            omega
          · intro w hw
            rcases List.mem_cons.mp hw with hwe | hw'
            · rw [hwe]
              exact hslmem
            · exact hc2 w hw'
          · rw [List.flatten_cons, List.length_append,
              length_slice (by omega) hm2]
            omega
        · rw [if_neg hc] at hnew
          simp at hnew
    · rw [dpTableSteps_succ_getD target wb _ henum hvalid m 0,
        if_neg (fun hc => absurd hc.1 (by omega)), List.append_nil]
      exact ih.2

/- ------------------------------------------------------------------ -/
/- The result depends on the bank only through membership.            -/
/- ------------------------------------------------------------------ -/

theorem canonSlots_congr (target : Str) (wb1 wb2 : List Str)
    (hmem : ∀ w, w ∈ wb1 ↔ w ∈ wb2) :
    ∀ k, canonSlots target wb1 k = canonSlots target wb2 k := by
  intro k
  induction k with
  | zero => rfl
  | succ k ih =>
    rw [canonSlots, canonSlots, ih]
    congr 2
    simp only [List.flatMap_def]
    refine congrArg List.flatten (List.map_congr_left ?_)
    intro pos hpos
    rw [if_congr (hmem _) rfl rfl]

theorem all_construct_bank_invariance (target : Str) (wb1 wb2 : List Str)
    (h1 : ∀ w ∈ wb1, w ≠ []) (h2 : ∀ w ∈ wb2, w ≠ [])
    (hmem : ∀ w, w ∈ wb1 ↔ w ∈ wb2) :
    all_construct target wb1 = all_construct target wb2 := by
  rw [all_construct_eq_canonResult target wb1 h1,
    all_construct_eq_canonResult target wb2 h2, canonResult, canonResult,
    canonSlot, canonSlot, canonSlots_congr target wb1 wb2 hmem]

/- ------------------------------------------------------------------ -/
/- Reduction of the validation wrapper on a string target and a list  -/
/- bank.                                                              -/
/- ------------------------------------------------------------------ -/

theorem checked_str_list (t : Str) (h : t ≠ []) (l : List PyVal) :
    all_construct_checked (PyVal.str t) (PyVal.list l) =
      if l.all (fun v => v.isStr) then
        if l.any (fun v => v.isFalsy) then
          Except.error (PyErr.valueError "Word bank cannot contain empty strings")
        else Except.ok (all_construct t (l.map PyVal.asStr))
      else Except.error (PyErr.typeError "All elements in word_bank must be strings") := by
  rw [all_construct_checked, if_neg h, pyIter_list]

theorem checked_empty_target (wbv : PyVal) :
    all_construct_checked (PyVal.str []) wbv =
      Except.error (PyErr.valueError "Target string cannot be empty") := by
  rw [all_construct_checked, if_pos rfl]

theorem empty_str_mem_of_any_falsy {l : List PyVal}
    (hall : l.all (fun v => v.isStr) = true)
    (hany : l.any (fun v => v.isFalsy) = true) : PyVal.str [] ∈ l := by
  rw [List.any_eq_true] at hany
  obtain ⟨v, hv, hfal⟩ := hany
  rw [List.all_eq_true] at hall
  have hstr := hall v hv
  cases v with
  | str s =>
    have hs : s = [] := by simpa [PyVal.isFalsy] using hfal
    rw [← hs]
    exact hv
  | int n => simp [PyVal.isStr] at hstr
  | bool b => simp [PyVal.isStr] at hstr
  | none => simp [PyVal.isStr] at hstr
  | list l' => simp [PyVal.isStr] at hstr

/- ================================================================== -/
/- Claim theorems.                                                    -/
/- ================================================================== -/

/-- C1: Soundness of the result — for every valid non-empty target and valid
word bank (all words non-empty), every decomposition in
`all_construct target wb` concatenates, in order, to exactly the target,
and each of its words belongs to the bank. -/
theorem c1_soundness (target : Str) (wb : List Str)
    (_h1 : target ≠ []) (h2 : ∀ w ∈ wb, w ≠ []) :
    ∀ D ∈ all_construct target wb, D.flatten = target ∧ ∀ w ∈ D, w ∈ wb :=
  all_construct_sound target wb h2

theorem c1_soundness_witness :
    ((['h','e','l','l','o'] : Str) ≠ []) ∧
    (∀ w ∈ [(['h','e'] : Str), ['l'], ['o']], w ≠ ([] : Str)) ∧
    (∀ D ∈ all_construct ['h','e','l','l','o'] [['h','e'], ['l'], ['o']],
      D.flatten = ['h','e','l','l','o'] ∧ ∀ w ∈ D, w ∈ [(['h','e'] : Str), ['l'], ['o']]) :=
  ⟨by decide, by decide,
   c1_soundness ['h','e','l','l','o'] [['h','e'], ['l'], ['o']] (by decide) (by decide)⟩

/-- C2: Completeness and absence of duplicates — every ordered sequence of
bank words whose concatenation equals the target occurs exactly once in the
result (counted with `List.count`), and the result list has no duplicate
entries, also when the bank itself repeats words. -/
theorem c2_completeness_no_duplicates (target : Str) (wb : List Str)
    (_h1 : target ≠ []) (h2 : ∀ w ∈ wb, w ≠ []) :
    (∀ D : Decomp, D.flatten = target → (∀ w ∈ D, w ∈ wb) →
      (all_construct target wb).count D = 1) ∧
    (all_construct target wb).Nodup :=
  ⟨fun D hD hDm => all_construct_count_eq_one target wb h2 D hD hDm,
   all_construct_nodup target wb h2⟩

theorem c2_witness :
    ((['a','a'] : Str) ≠ []) ∧
    (∀ w ∈ [(['a'] : Str), ['a'], ['a','a']], w ≠ ([] : Str)) ∧
    (([['a'],['a']] : Decomp).flatten = ['a','a']) ∧
    (∀ w ∈ ([['a'],['a']] : Decomp), w ∈ [(['a'] : Str), ['a'], ['a','a']]) ∧
    (all_construct ['a','a'] [['a'], ['a'], ['a','a']]).count [['a'],['a']] = 1 :=
  ⟨by decide, by decide, by decide, by decide,
   (c2_completeness_no_duplicates ['a','a'] [['a'], ['a'], ['a','a']]
     (by decide) (by decide)).1 [['a'],['a']] (by decide) (by decide)⟩

/-- C4: Unconstructible targets give the empty result, with no error — on
valid inputs admitting no decomposition, the checked call returns `ok []`
(so no exception is raised and the value is the empty list, not a `None`
analogue). -/
theorem c4_unconstructible_empty (target : Str) (wb : List Str)
    (h1 : target ≠ []) (h2 : ∀ w ∈ wb, w ≠ [])
    (h3 : ∀ D : Decomp, ¬ (D.flatten = target ∧ ∀ w ∈ D, w ∈ wb)) :
    all_construct_checked (PyVal.str target) (PyVal.list (wb.map PyVal.str)) =
      Except.ok [] ∧ all_construct target wb = [] := by
  have hempty : all_construct target wb = [] := by
    rw [List.eq_nil_iff_forall_not_mem]
    intro D hD
    exact h3 D (all_construct_sound target wb h2 D hD)
  refine ⟨?_, hempty⟩
  rw [checked_valid target wb h1 h2, hempty]

theorem c4_witness :
    ((['a'] : Str) ≠ []) ∧ (∀ w ∈ ([] : List Str), w ≠ ([] : Str)) ∧
    (∀ D : Decomp, ¬ (D.flatten = ['a'] ∧ ∀ w ∈ D, w ∈ ([] : List Str))) ∧
    all_construct_checked (PyVal.str ['a']) (PyVal.list []) = Except.ok [] := by
  have h3 : ∀ D : Decomp, ¬ (D.flatten = ['a'] ∧ ∀ w ∈ D, w ∈ ([] : List Str)) := by
    intro D hD
    cases D with
    | nil => simp at hD
    | cons w c => exact absurd (hD.2 w (List.mem_cons_self _ _)) (List.not_mem_nil w)
  exact ⟨by decide, by decide, h3,
    (c4_unconstructible_empty ['a'] [] (by decide) (by decide) h3).1⟩

/-- C7: Bank order and duplication irrelevance — two valid banks with the
same underlying set of words (permutations and duplications included) give
equal results; in particular the results are equal as sets of
decompositions. -/
theorem c7_bank_invariance (target : Str) (wb1 wb2 : List Str)
    (_h0 : target ≠ [])
    (h1 : ∀ w ∈ wb1, w ≠ []) (h2 : ∀ w ∈ wb2, w ≠ [])
    (hmem : ∀ w, w ∈ wb1 ↔ w ∈ wb2) :
    all_construct target wb1 = all_construct target wb2 :=
  all_construct_bank_invariance target wb1 wb2 h1 h2 hmem

theorem c7_witness :
    ((['a','a'] : Str) ≠ []) ∧
    (∀ w ∈ [(['a'] : Str), ['a','a']], w ≠ ([] : Str)) ∧
    (∀ w ∈ [(['a','a'] : Str), ['a'], ['a']], w ≠ ([] : Str)) ∧
    (∀ w : Str, w ∈ [(['a'] : Str), ['a','a']] ↔ w ∈ [(['a','a'] : Str), ['a'], ['a']]) ∧
    all_construct ['a','a'] [['a'], ['a','a']] =
      all_construct ['a','a'] [['a','a'], ['a'], ['a']] :=
  ⟨by decide, by decide, by decide, by intro w; simp; tauto,
   c7_bank_invariance ['a','a'] [['a'], ['a','a']] [['a','a'], ['a'], ['a']]
     (by decide) (by decide) (by decide) (by intro w; simp; tauto)⟩

/-- C8: Bounds safety — every word recorded at offset `i` satisfies
`i + len(word) ≤ len(target)` (matches are position-bounded), so every
write index `end_pos = i + len(word)` of the DP fill stays within the
table, whose length remains `len(target) + 1` after every iteration. -/
theorem c8_bounds_safety (target : Str) (wb : List Str) :
    (∀ i w, w ∈ word_positions target wb i → i + w.length ≤ target.length) ∧
    (∀ enum : Nat → List Str, ∀ m,
      (dpTableSteps target.length enum m).length = target.length + 1) :=
  ⟨fun _ _ hw => (mem_word_positions.mp hw).2.1,
   fun enum m => length_dpTableSteps target.length enum m⟩

theorem c8_witness :
    ((['a'] : Str) ∈ word_positions ['a','b'] [['a']] 0) ∧
    (0 + (['a'] : Str).length ≤ (['a','b'] : Str).length) ∧
    (dpTableSteps (['a','b'] : Str).length (word_positions ['a','b'] [['a']]) 2).length =
      (['a','b'] : Str).length + 1 :=
  ⟨by decide, (c8_bounds_safety ['a','b'] [['a']]).1 0 ['a'] (by decide),
   (c8_bounds_safety ['a','b'] [['a']]).2 (word_positions ['a','b'] [['a']]) 2⟩

/-- C9: Falsy word banks are silently treated as the empty bank — for a
valid non-empty target, any falsy second argument (`None`, `0`, `False`,
`""`, `[]`) raises nothing and returns the same value as the empty bank,
namely the empty result. -/
theorem c9_falsy_bank (t : Str) (h1 : t ≠ []) (x : PyVal) (hx : x.isFalsy = true) :
    all_construct_checked (PyVal.str t) x = Except.ok [] ∧
    all_construct_checked (PyVal.str t) x =
      all_construct_checked (PyVal.str t) (PyVal.list []) := by
  have hred : all_construct_checked (PyVal.str t) x =
      Except.ok (all_construct t []) := by
    rw [all_construct_checked, if_neg h1, if_pos hx]
    rfl
  have hnil : all_construct t [] = [] := all_construct_nil t h1
  constructor
  · rw [hred, hnil]
  · rw [hred, all_construct_checked, if_neg h1]
    rfl

theorem c9_witness :
    ((['a'] : Str) ≠ []) ∧ (PyVal.none.isFalsy = true) ∧
    ((PyVal.int 0).isFalsy = true) ∧
    all_construct_checked (PyVal.str ['a']) PyVal.none = Except.ok [] ∧
    all_construct_checked (PyVal.str ['a']) (PyVal.int 0) =
      all_construct_checked (PyVal.str ['a']) (PyVal.list []) :=
  ⟨by decide, rfl, rfl,
   (c9_falsy_bank ['a'] (by decide) PyVal.none rfl).1,
   (c9_falsy_bank ['a'] (by decide) (PyVal.int 0) rfl).2⟩

/-- C10: Returned decompositions are never empty and never longer than the
target — each one holds at least one word and at most `len(target)` words. -/
theorem c10_decomposition_size (target : Str) (wb : List Str)
    (h1 : target ≠ []) (h2 : ∀ w ∈ wb, w ≠ []) :
    ∀ D ∈ all_construct target wb, D ≠ [] ∧ D.length ≤ target.length := by
  intro D hD
  obtain ⟨hflat, hmem⟩ := all_construct_sound target wb h2 D hD
  have hne : ∀ w ∈ D, w ≠ [] := fun w hw => h2 w (hmem w hw)
  constructor
  · intro he
    subst he
    exact h1 hflat.symm
  · have hlen := length_le_flatten_length D hne
    rw [hflat] at hlen
    exact hlen

theorem c10_witness :
    ((['a','b'] : Str) ≠ []) ∧
    (∀ w ∈ [(['a'] : Str), ['b'], ['a','b']], w ≠ ([] : Str)) ∧
    (∀ D ∈ all_construct ['a','b'] [['a'], ['b'], ['a','b']],
      D ≠ [] ∧ D.length ≤ (['a','b'] : Str).length) :=
  ⟨by decide, by decide,
   c10_decomposition_size ['a','b'] [['a'], ['b'], ['a','b']] (by decide) (by decide)⟩

/-- C5 (amended): DP-table invariants — after every outer-loop iteration,
each entry `e` of slot `k` is a decomposition stored in reversed word
order: the concatenation of `e` reversed equals `target[0:k]` and the
total character count of `e` is `k`; slot 0 holds exactly the empty
decomposition and never gains another entry.  (The claim's literal
`concat(D) == target[0:k]` fails because the source stores the words of
each combination back-to-front until the final reversal; see the
counterexample.) -/
theorem c5_table_invariants (target : Str) (wb : List Str)
    (h2 : ∀ w ∈ wb, w ≠ []) :
    ∀ m,
      (∀ k, ∀ e ∈ (dpTableSteps target.length (word_positions target wb) m).getD k [],
        e.reverse.flatten = target.take k ∧ e.flatten.length = k) ∧
      (dpTableSteps target.length (word_positions target wb) m).getD 0 [] = [[]] := by
  intro m
  refine ⟨?_, (dpTableSteps_invariant target wb h2 m).2⟩
  intro k e he
  obtain ⟨ha, -, hc⟩ := (dpTableSteps_invariant target wb h2 m).1 k e he
  exact ⟨ha, hc⟩

theorem c5_witness :
    (∀ w ∈ [(['a'] : Str)], w ≠ ([] : Str)) ∧
    (dpTableSteps (['a'] : Str).length (word_positions ['a'] [['a']]) 1).getD 0 [] = [[]] ∧
    (([['a']] : Decomp).reverse.flatten = (['a'] : Str).take 1 ∧
      ([['a']] : Decomp).flatten.length = 1) := by
  have h := c5_table_invariants ['a'] [['a']] (by decide)
  exact ⟨by decide, (h 1).2, (h 1).1 1 [['a']] (by decide)⟩

/-- C5 counterexample: during the fill for target "abc" with bank
["a","b","c"], after two outer iterations slot 2 holds the (reversed)
entry `["b","a"]`, whose in-place concatenation is "ba", not
`target[0:2] = "ab"` — refuting the claim's `concat(D) == target[0:k]`
for table entries as stored. -/
theorem c5_claim_counterexample :
    ([['b'],['a']] : Decomp) ∈
      (dpTableSteps (['a','b','c'] : Str).length
        (word_positions ['a','b','c'] [['a'],['b'],['c']]) 2).getD 2 [] ∧
    ([['b'],['a']] : Decomp).flatten ≠ (['a','b','c'] : Str).take 2 := by
  decide

/-- C6 (amended): the result is deterministic — whatever order the
per-position word sets are enumerated in, the table yields the same final
list, equal to `all_construct` and to the canonical description
`canonResult` (entries grouped by increasing start position of their last
word).  The enumeration order of the claim — depth-first by first word in
bank-scan order, as in `refConstruct` — is not the produced order; see
the counterexample. -/
theorem c6_deterministic_order (target : Str) (wb : List Str) (enum : Nat → List Str)
    (henum : ∀ i, (enum i).Perm (word_positions target wb i))
    (hvalid : ∀ w ∈ wb, w ≠ []) :
    ((dpTableWith target.length enum).getD target.length []).map List.reverse =
      all_construct target wb ∧
    all_construct target wb = canonResult target wb := by
  refine ⟨?_, all_construct_eq_canonResult target wb hvalid⟩
  rw [dpTableWith_getD_eq_canonSlot target wb enum henum hvalid target.length le_rfl,
    all_construct_eq_canonResult target wb hvalid, canonResult]

theorem c6_witness :
    (∀ i, ((word_positions ['a','b'] [['a'],['b']] i).reverse).Perm
      (word_positions ['a','b'] [['a'],['b']] i)) ∧
    ((dpTableWith (['a','b'] : Str).length
        (fun i => (word_positions ['a','b'] [['a'],['b']] i).reverse)).getD
          (['a','b'] : Str).length []).map List.reverse =
      all_construct ['a','b'] [['a'],['b']] :=
  ⟨fun _ => List.reverse_perm _,
   (c6_deterministic_order ['a','b'] [['a'],['b']]
     (fun i => (word_positions ['a','b'] [['a'],['b']] i).reverse)
     (fun _ => List.reverse_perm _) (by decide)).1⟩

/-- C6 counterexample: for target "aaa" and bank ["a","aa","aaa"], the
code returns the decompositions grouped by the start position of their
last word — `[aaa], [a,aa], [aa,a], [a,a,a]` — while the reference
depth-first bank-scan order of the claim produces
`[a,a,a], [a,aa], [aa,a], [aaa]`; the two orders differ. -/
theorem c6_claim_counterexample :
    all_construct ['a','a','a'] [['a'], ['a','a'], ['a','a','a']] =
      [[['a','a','a']], [['a'],['a','a']], [['a','a'],['a']], [['a'],['a'],['a']]] ∧
    refConstruct [['a'], ['a','a'], ['a','a','a']] ['a','a','a'] =
      [[['a'],['a'],['a']], [['a'],['a','a']], [['a','a'],['a']], [['a','a','a']]] ∧
    all_construct ['a','a','a'] [['a'], ['a','a'], ['a','a','a']] ≠
      refConstruct [['a'], ['a','a'], ['a','a','a']] ['a','a','a'] := by
  decide

/-- C3 (amended): raises-iff with source precedence — over any target value
and a list-valued word bank, a `TypeError` is raised iff the target is not
a string, or the target is a non-empty string and some bank element is not
a string; a `ValueError` is raised iff the target is the empty string, or
the target is a non-empty string, every bank element is a string, and some
element is the empty string; when neither condition holds the call returns
a result (errors replace the result entirely — no partial value).  The
claim's unconditional double "iff" fails because target validation runs
before bank validation; see the counterexample. -/
theorem c3_validation_characterization (tv : PyVal) (l : List PyVal) :
    (isTypeError (all_construct_checked tv (PyVal.list l)) = true ↔
      tv.isStr = false ∨
        (∃ t, tv = PyVal.str t ∧ t ≠ [] ∧ ∃ v ∈ l, v.isStr = false)) ∧
    (isValueError (all_construct_checked tv (PyVal.list l)) = true ↔
      tv = PyVal.str [] ∨
        (∃ t, tv = PyVal.str t ∧ t ≠ [] ∧ (∀ v ∈ l, v.isStr = true) ∧
          PyVal.str [] ∈ l)) ∧
    ((tv.isStr = true ∧ tv ≠ PyVal.str [] ∧ (∀ v ∈ l, v.isStr = true) ∧
        PyVal.str [] ∉ l) →
      ∃ r, all_construct_checked tv (PyVal.list l) = Except.ok r) := by
  by_cases hstr : tv.isStr = true
  · obtain ⟨t, rfl⟩ : ∃ t, tv = PyVal.str t := by
      cases tv with
      | str s => exact ⟨s, rfl⟩
      | int n => simp [PyVal.isStr] at hstr
      | bool b => simp [PyVal.isStr] at hstr
      | none => simp [PyVal.isStr] at hstr
      | list l' => simp [PyVal.isStr] at hstr
    by_cases ht : t = []
    · subst ht
      rw [checked_empty_target]
      refine ⟨?_, ?_, ?_⟩
      · simp [isTypeError, PyVal.isStr]
      · simp [isValueError]
      · rintro ⟨-, habs, -⟩
        exact absurd rfl habs
    · rw [checked_str_list t ht l]
      by_cases hall : l.all (fun v => v.isStr) = true
      · rw [if_pos hall]
        have hallP : ∀ v ∈ l, v.isStr = true := List.all_eq_true.mp hall
        by_cases hany : l.any (fun v => v.isFalsy) = true
        · rw [if_pos hany]
          have hmem : PyVal.str [] ∈ l := empty_str_mem_of_any_falsy hall hany
          refine ⟨?_, ?_, ?_⟩
          · simp only [isTypeError]
            constructor
            · intro h
              simp at h
            · rintro (h | ⟨t', -, -, v, hv, hvs⟩)
              · simp [PyVal.isStr] at h
              · rw [hallP v hv] at hvs
                simp at hvs
          · simp only [isValueError]
            constructor
            · intro _
              exact Or.inr ⟨t, rfl, ht, hallP, hmem⟩
            · intro _
              trivial
          · rintro ⟨-, -, -, habs⟩
            exact absurd hmem habs
        · rw [if_neg hany]
          refine ⟨?_, ?_, ?_⟩
          · simp only [isTypeError]
            constructor
            · intro h
              simp at h
            · rintro (h | ⟨t', -, -, v, hv, hvs⟩)
              · simp [PyVal.isStr] at h
              · rw [hallP v hv] at hvs
                simp at hvs
          · simp only [isValueError]
            constructor
            · intro h
              simp at h
            · rintro (he | ⟨t', -, -, -, hmem⟩)
              · exact absurd (PyVal.str.inj he) ht
              · exfalso
                apply hany
                rw [List.any_eq_true]
                exact ⟨PyVal.str [], hmem, rfl⟩
          · intro _
            exact ⟨_, rfl⟩
      · rw [if_neg hall]
        have hnall : ∃ v ∈ l, v.isStr = false := by
          by_contra hc
          apply hall
          rw [List.all_eq_true]
          intro v hv
          by_contra hvs
          exact hc ⟨v, hv, by simpa using hvs⟩
        refine ⟨?_, ?_, ?_⟩
        · simp only [isTypeError]
          constructor
          · intro _
            exact Or.inr ⟨t, rfl, ht, hnall⟩
          · intro _
            trivial
        · simp only [isValueError]
          constructor
          · intro h
            simp at h
          · rintro (he | ⟨t', -, -, hallP, -⟩)
            · exact absurd (PyVal.str.inj he) ht
            · exact absurd (List.all_eq_true.mpr hallP) hall
        · rintro ⟨-, -, hallP, -⟩
          exact absurd (List.all_eq_true.mpr hallP) hall
  · have hfalse : tv.isStr = false := by simpa using hstr
    have hres : all_construct_checked tv (PyVal.list l) =
        Except.error (PyErr.typeError "Target must be a string") := by
      cases tv with
      | str s => simp [PyVal.isStr] at hfalse
      | int n => rfl
      | bool b => rfl
      | none => rfl
      | list l' => rfl
    rw [hres]
    refine ⟨?_, ?_, ?_⟩
    · simp only [isTypeError]
      constructor
      · intro _
        exact Or.inl hfalse
      · intro _
        trivial
    · simp only [isValueError]
      constructor
      · intro h
        simp at h
      · rintro (he | ⟨t', he, -⟩)
        · rw [he] at hfalse
          simp [PyVal.isStr] at hfalse
        · rw [he] at hfalse
          simp [PyVal.isStr] at hfalse
    · rintro ⟨h, -⟩
      rw [h] at hfalse
      simp at hfalse

theorem c3_witness :
    isTypeError (all_construct_checked (PyVal.int 3) (PyVal.list [])) = true :=
  (c3_validation_characterization (PyVal.int 3) []).1.mpr (Or.inl rfl)

/-- C3 counterexample: with the empty-string target and the bank `[0]`,
the claim's TypeMismatch condition holds (an element of the bank is not a
string), yet the code raises `ValueError` for the empty target and no
`TypeError` — target validation precedes bank validation, refuting the
claim's "if and only if". -/
theorem c3_claim_counterexample :
    (∃ v ∈ [PyVal.int 0], v.isStr = false) ∧
    isTypeError (all_construct_checked (PyVal.str []) (PyVal.list [PyVal.int 0])) = false ∧
    isValueError (all_construct_checked (PyVal.str []) (PyVal.list [PyVal.int 0])) = true :=
  ⟨⟨PyVal.int 0, List.mem_cons_self _ _, rfl⟩, rfl, rfl⟩

end AllConstruct
